import Mathlib

set_option linter.unusedSectionVars false
set_option linter.unusedVariables false

/-!
Verification of the JoinEm polyline-stitching program (src/join-em.py).

The embedding is a direct translation of the two core functions of the
source, `find_closest` and the assembly loop of `join_em`, into Lean.

Modelling choices:
* A coordinate point is an abstract type `P` with decidable equality
  (the source uses shapely points, compared coordinate-wise), and the
  distance metric is an abstract function `d : P → P → A` into a linear
  order `A` with a zero (the source offers planar Euclidean distance and
  scaled haversine distance; both are instances of such a `d`).  The
  concrete instantiation `euclidSq` on `ℤ × ℤ` — squared Euclidean
  distance — is used for concrete runs; it is order-isomorphic to the
  planar metric of the source (squaring is monotone on nonnegative
  reals), so every comparison the source makes comes out the same.
* A polyline is its coordinate list (`seg.coords` in the source).  The
  source indexes `coords[0]` and `coords[-1]`, which crashes on an empty
  list; `polyStart`/`polyEnd` return `default` there, and every claim
  about endpoints carries the nonemptiness that the source presupposes.
* Python lists become Lean lists.  `list.pop()` is `getLast?`/`dropLast`,
  `list.remove(x)` is `List.erase` (first occurrence; `find_closest`
  always returns the first pool element attaining the minimum, so the
  erased element is the matched one), `insert(0, x)` is cons, `append`
  is `++ [x]`.
* The in-place reversal `closest_segment.coords = list(...)[::-1]` acts
  on a segment that has already been removed from the pool, so in the
  value model it is `List.reverse` of the matched segment.
* The `while` loop is fuel-indexed recursion; `join_em` runs it with
  fuel equal to the pool size, which the termination theorem shows is
  enough.
* Python truthiness `if closest_segment and distance < tolerance`: a
  `None` candidate and an empty linestring are both falsy, captured by
  `acceptMatch`.
-/

namespace JoinEm

/-- A polyline is the list of its coordinates (`seg.coords`). -/
abbrev Poly (P : Type) := List P

variable {P A : Type} [DecidableEq P] [Inhabited P] [LinearOrder A] [Zero A]

/-- The start point of a polyline: `seg.coords[0]` in the source. -/
def polyStart (s : Poly P) : P := s.headD default

/-- The end point of a polyline: `seg.coords[-1]` in the source. -/
def polyEnd (s : Poly P) : P := s.getLastD default

/-- The endpoint kind reported by `find_closest`: the strings
`"start"` and `"end"` of the source. -/
inductive Loc
  | atStart
  | atEnd
deriving DecidableEq, Repr

/-- The running state of `find_closest`: the three local variables
`closest_segment`, `closest_distance`, `closest_location` of the source
(`none` models Python `None`). -/
structure FCState (P A : Type) where
  closest_segment : Option (Poly P)
  closest_distance : A
  closest_location : Option Loc
deriving DecidableEq, Repr

/-- One iteration of the `for seg in segments` loop of `find_closest`
(src/join-em.py lines 96–114): compare the start distance against the
running minimum first (or take it unconditionally when no candidate has
been recorded yet), then compare the end distance against the possibly
just-updated running minimum; each comparison is strict. -/
def fcStep (d : P → P → A) (point : P) (st : FCState P A) (seg : Poly P) :
    FCState P A :=
  let start_distance := d point (polyStart seg)
  let end_distance := d point (polyEnd seg)
  let st1 : FCState P A :=
    if st.closest_segment = none ∨ start_distance < st.closest_distance then
      ⟨some seg, start_distance, some Loc.atStart⟩
    else st
  if end_distance < st1.closest_distance then
    ⟨some seg, end_distance, some Loc.atEnd⟩
  else st1

/-- `find_closest` of the source (lines 87–116): fold the per-segment
step over the pool, starting from `(None, 0, None)`. -/
def find_closest (d : P → P → A) (point : P) (segments : List (Poly P)) :
    FCState P A :=
  segments.foldl (fcStep d point) ⟨none, 0, none⟩

/-- The guard `if closest_segment and distance < tolerance` of the
source (lines 30 and 43).  Python truthiness: `None` is falsy and so is
an empty linestring; the comparison with the tolerance is strict.  On
success it yields the matched segment and the reported endpoint kind. -/
def acceptMatch (tolerance : A) (r : FCState P A) :
    Option (Poly P × Option Loc) :=
  match r.closest_segment with
  | some cs =>
      if cs ≠ [] ∧ r.closest_distance < tolerance then
        some (cs, r.closest_location)
      else none
  | none => none

/-- Python `list.remove(x)` (lines 33 and 46): remove the first
occurrence of `x` from the list. -/
def removeFirst : List (Poly P) → Poly P → List (Poly P)
  | [], _ => []
  | x :: rest, cs => if x = cs then rest else x :: removeFirst rest cs

/-- The loop state of `join_em`: the remaining pool `src_segments`, the
chain `segments_in_order`, and the variable `seg` holding the most
recently placed segment. -/
structure JState (P : Type) where
  pool : List (Poly P)
  chain : List (Poly P)
  seg : Poly P
deriving DecidableEq, Repr

/-- The tail-side query of the loop body (lines 26 and 28): the source
passes `end = Point(seg.coords[-1])`, the end point of the variable
`seg`, to `find_closest` over the current pool. -/
def tailQuery (d : P → P → A) (s : JState P) : FCState P A :=
  find_closest d (polyEnd s.seg) s.pool

/-- The head-side query of the loop body (lines 25 and 41): the source
passes `start = Point(seg.coords[0])`, the start point of the variable
`seg`, to `find_closest` over the current pool. -/
def headQuery (d : P → P → A) (s : JState P) : FCState P A :=
  find_closest d (polyStart s.seg) s.pool

/-- One iteration of the `while` loop of `join_em` (lines 24–55).
`some` is a successful extension (tail attempt first, then head
attempt), `none` is the `break`.  On a tail match the segment is
reversed iff the matched endpoint kind is `end` and appended; on a head
match it is reversed iff the kind is `start` and prepended; in both
cases the matched segment is removed from the pool (before the
reversal, as in the source) and becomes the new `seg`. -/
def join_step (d : P → P → A) (tolerance : A) (s : JState P) :
    Option (JState P) :=
  match acceptMatch tolerance (tailQuery d s) with
  | some (cs, loc) =>
      let cs2 := if loc = some Loc.atEnd then cs.reverse else cs
      some ⟨removeFirst s.pool cs, s.chain ++ [cs2], cs2⟩
  | none =>
      match acceptMatch tolerance (headQuery d s) with
      | some (cs, loc) =>
          let cs2 := if loc = some Loc.atStart then cs.reverse else cs
          some ⟨removeFirst s.pool cs, cs2 :: s.chain, cs2⟩
      | none => none

/-- The `while len(src_segments) > 0` loop, fuel-indexed.  `join_em`
runs it with fuel `pool.length`, which suffices (each successful step
removes one pool element). -/
def join_loop (d : P → P → A) (tolerance : A) : Nat → JState P → JState P
  | 0, s => s
  | fuel + 1, s =>
      if s.pool = [] then s
      else
        match join_step d tolerance s with
        | some s2 => join_loop d tolerance fuel s2
        | none => s

/-- Seeding (lines 22–23): `seg = src_segments.pop()` removes the last
list element, and `segments_in_order = [seg]`. -/
def seedState (src : List (Poly P)) : JState P :=
  ⟨src.dropLast, [src.getLastD []], src.getLastD []⟩

/-- The assembly part of `join_em` (lines 22–58): seed from the last
input segment, run the loop, and return the chain together with the
leftover pool.  `none` models the crash of `pop()` on an empty input. -/
def assemble (d : P → P → A) (tolerance : A) (src : List (Poly P)) :
    Option (List (Poly P) × List (Poly P)) :=
  match src.getLast? with
  | none => none
  | some _ =>
      let f := join_loop d tolerance (seedState src).pool.length (seedState src)
      some (f.chain, f.pool)

/-- The list of loop states visited by `join_em`, in order: the seeded
state, then the state after each successful iteration, cut off at the
`break` or when the pool is empty (fuel-indexed like `join_loop`). -/
def runStates (d : P → P → A) (tolerance : A) :
    Nat → JState P → List (JState P)
  | 0, s => [s]
  | fuel + 1, s =>
      s ::
        (if s.pool = [] then []
         else
           match join_step d tolerance s with
           | some s2 => runStates d tolerance fuel s2
           | none => [])

/-- Combine mode (lines 60–67): `all_coords` is built by extending with
each chain segment's coordinates in chain order, with no deduplication
of shared connecting points. -/
def all_coords (segments_in_order : List (Poly P)) : List P :=
  segments_in_order.foldl (fun acc seg => acc ++ seg) []

/-- Squared planar Euclidean distance on integer coordinates: the
concrete instantiation of the metric used for concrete runs.  It is
order-isomorphic to the source's planar Euclidean metric (squaring is
monotone on nonnegative reals), so all comparisons agree with the
source once the tolerance is squared as well. -/
def euclidSq (p q : ℤ × ℤ) : ℤ := (p.1 - q.1) ^ 2 + (p.2 - q.2) ^ 2

/-- The streaming enumeration order of endpoint candidates used by
`find_closest`: pool order, and for each segment the start before the
end. -/
def pairsOf : List (Poly P) → List (Poly P × Loc)
  | [] => []
  | s :: rest => (s, Loc.atStart) :: (s, Loc.atEnd) :: pairsOf rest

/-- The distance from the target to one endpoint candidate. -/
def epDist (d : P → P → A) (point : P) : Poly P × Loc → A
  | (s, Loc.atStart) => d point (polyStart s)
  | (s, Loc.atEnd) => d point (polyEnd s)

/-- The smallest of the four endpoint-to-endpoint distances between two
polylines — the distance between their nearest endpoints. -/
def minDist4 (d : P → P → A) (p q : Poly P) : A :=
  min (min (d (polyEnd q) (polyStart p)) (d (polyEnd q) (polyEnd p)))
    (min (d (polyStart q) (polyStart p)) (d (polyStart q) (polyEnd p)))

example :
    find_closest euclidSq (1, 0) [[((-1 : ℤ), (0 : ℤ)), (0, 0)], [(-2, 0), (-1, 0)]] =
      ⟨some [(-1, 0), (0, 0)], 1, some Loc.atEnd⟩ := by decide

example :
    assemble euclidSq 1 [[((0 : ℤ), (0 : ℤ)), (1, 0)]] =
      some ([[(0, 0), (1, 0)]], []) := by decide

/-! ## Characterisation of `find_closest`

`find_closest` is a streaming running minimum over the endpoint
candidates enumerated by `pairsOf`, every update requiring a strictly
smaller distance, so the returned candidate is the first one (in pool
order, start before end) attaining the minimum distance.  `FCInv`
states this for the state reached after processing a prefix of the
pool. -/

/-- Invariant of the `find_closest` fold: after processing `processed`,
the state records some candidate pair together with its distance, that
pair splits the candidate enumeration into a strictly-greater prefix
and a no-smaller suffix. -/
def FCInv (d : P → P → A) (point : P) (processed : List (Poly P))
    (st : FCState P A) : Prop :=
  ∃ cs loc l1 l2,
    st = ⟨some cs, epDist d point (cs, loc), some loc⟩ ∧
    pairsOf processed = l1 ++ (cs, loc) :: l2 ∧
    (∀ x ∈ l1, epDist d point (cs, loc) < epDist d point x) ∧
    (∀ x ∈ l2, epDist d point (cs, loc) ≤ epDist d point x)

lemma pairsOf_append (l1 l2 : List (Poly P)) :
    pairsOf (l1 ++ l2) = pairsOf l1 ++ pairsOf l2 := by
  induction l1 with
  | nil => simp [pairsOf]
  | cons s rest ih => simp [pairsOf, ih]

lemma pairsOf_mem {x : Poly P × Loc} :
    ∀ {l : List (Poly P)}, x ∈ pairsOf l → x.1 ∈ l := by
  intro l
  induction l with
  | nil => simp [pairsOf]
  | cons s rest ih =>
      intro hx
      simp only [pairsOf, List.mem_cons] at hx
      rcases hx with h | h | h
      · subst h; exact List.mem_cons_self s rest
      · subst h; exact List.mem_cons_self s rest
      · exact List.mem_cons_of_mem s (ih h)

lemma fcStep_some_eq (d : P → P → A) (point : P) (cs : Poly P) (dm : A)
    (loc : Loc) (seg : Poly P) :
    fcStep d point ⟨some cs, dm, some loc⟩ seg =
      if d point (polyStart seg) < dm then
        if d point (polyEnd seg) < d point (polyStart seg) then
          ⟨some seg, d point (polyEnd seg), some Loc.atEnd⟩
        else ⟨some seg, d point (polyStart seg), some Loc.atStart⟩
      else
        if d point (polyEnd seg) < dm then
          ⟨some seg, d point (polyEnd seg), some Loc.atEnd⟩
        else ⟨some cs, dm, some loc⟩ := by
  simp only [fcStep]
  split_ifs <;> simp_all

lemma fcStep_init_eq (d : P → P → A) (point : P) (seg : Poly P) :
    fcStep d point ⟨none, (0 : A), none⟩ seg =
      if d point (polyEnd seg) < d point (polyStart seg) then
        ⟨some seg, d point (polyEnd seg), some Loc.atEnd⟩
      else ⟨some seg, d point (polyStart seg), some Loc.atStart⟩ := by
  simp only [fcStep]
  split_ifs <;> simp_all

lemma fcStep_inv {d : P → P → A} {point : P} {processed : List (Poly P)}
    {st : FCState P A} (seg : Poly P) (h : FCInv d point processed st) :
    FCInv d point (processed ++ [seg]) (fcStep d point st seg) := by
  obtain ⟨cs, loc, l1, l2, hst, hpairs, hlt, hle⟩ := h
  subst hst
  have hpl : pairsOf (processed ++ [seg]) =
      l1 ++ (cs, loc) :: l2 ++ [(seg, Loc.atStart), (seg, Loc.atEnd)] := by
    rw [pairsOf_append, hpairs]; simp [pairsOf]
  rw [fcStep_some_eq]
  by_cases h1 : d point (polyStart seg) < epDist d point (cs, loc)
  · by_cases h2 : d point (polyEnd seg) < d point (polyStart seg)
    · rw [if_pos h1, if_pos h2]
      refine ⟨seg, Loc.atEnd, l1 ++ (cs, loc) :: (l2 ++ [(seg, Loc.atStart)]),
        [], rfl, ?_, ?_, ?_⟩
      · rw [hpl]; simp
      · intro x hx
        have hde : epDist d point (seg, Loc.atEnd) = d point (polyEnd seg) := rfl
        rw [hde]
        simp only [List.mem_append, List.mem_cons, List.not_mem_nil,
          or_false] at hx
        rcases hx with hx | hx | hx | hx
        · exact (h2.trans h1).trans (hlt x hx)
        · subst hx; exact h2.trans h1
        · exact lt_of_lt_of_le (h2.trans h1) (hle x hx)
        · subst hx; exact h2
      · intro x hx; simp at hx
    · rw [if_pos h1, if_neg h2]
      refine ⟨seg, Loc.atStart, l1 ++ (cs, loc) :: l2, [(seg, Loc.atEnd)],
        rfl, ?_, ?_, ?_⟩
      · rw [hpl]
      · intro x hx
        have hds : epDist d point (seg, Loc.atStart) = d point (polyStart seg) := rfl
        rw [hds]
        simp only [List.mem_append, List.mem_cons, List.not_mem_nil,
          or_false] at hx
        rcases hx with hx | hx | hx
        · exact h1.trans (hlt x hx)
        · subst hx; exact h1
        · exact lt_of_lt_of_le h1 (hle x hx)
      · intro x hx
        simp only [List.mem_cons, List.not_mem_nil, or_false] at hx
        subst hx
        exact not_lt.mp h2
  · by_cases h2 : d point (polyEnd seg) < epDist d point (cs, loc)
    · rw [if_neg h1, if_pos h2]
      refine ⟨seg, Loc.atEnd, l1 ++ (cs, loc) :: (l2 ++ [(seg, Loc.atStart)]),
        [], rfl, ?_, ?_, ?_⟩
      · rw [hpl]; simp
      · intro x hx
        have hde : epDist d point (seg, Loc.atEnd) = d point (polyEnd seg) := rfl
        rw [hde]
        simp only [List.mem_append, List.mem_cons, List.not_mem_nil,
          or_false] at hx
        rcases hx with hx | hx | hx | hx
        · exact h2.trans (hlt x hx)
        · subst hx; exact h2
        · exact lt_of_lt_of_le h2 (hle x hx)
        · subst hx; exact h2.trans_le (not_lt.mp h1)
      · intro x hx; simp at hx
    · rw [if_neg h1, if_neg h2]
      refine ⟨cs, loc, l1, l2 ++ [(seg, Loc.atStart), (seg, Loc.atEnd)],
        rfl, ?_, hlt, ?_⟩
      · rw [hpl]; simp
      · intro x hx
        simp only [List.mem_append, List.mem_cons, List.not_mem_nil,
          or_false] at hx
        rcases hx with hx | hx | hx
        · exact hle x hx
        · subst hx; exact not_lt.mp h1
        · subst hx; exact not_lt.mp h2

lemma fc_fold_inv {d : P → P → A} {point : P} :
    ∀ (segs : List (Poly P)) (processed : List (Poly P)) (st : FCState P A),
      FCInv d point processed st →
      FCInv d point (processed ++ segs) (segs.foldl (fcStep d point) st) := by
  intro segs
  induction segs with
  | nil => intro processed st h; simpa using h
  | cons a rest ih =>
      intro processed st h
      have h1 := fcStep_inv a h
      have h2 := ih (processed ++ [a]) (fcStep d point st a) h1
      simpa using h2

lemma fc_first {d : P → P → A} {point : P} (a : Poly P) :
    FCInv d point [a] (fcStep d point ⟨none, (0 : A), none⟩ a) := by
  rw [fcStep_init_eq]
  by_cases h2 : d point (polyEnd a) < d point (polyStart a)
  · rw [if_pos h2]
    refine ⟨a, Loc.atEnd, [(a, Loc.atStart)], [], rfl, rfl, ?_, ?_⟩
    · intro x hx
      simp only [List.mem_cons, List.not_mem_nil, or_false] at hx
      subst hx
      exact h2
    · intro x hx; simp at hx
  · rw [if_neg h2]
    refine ⟨a, Loc.atStart, [], [(a, Loc.atEnd)], rfl, rfl, ?_, ?_⟩
    · intro x hx; simp at hx
    · intro x hx
      simp only [List.mem_cons, List.not_mem_nil, or_false] at hx
      subst hx
      exact not_lt.mp h2

lemma find_closest_inv (d : P → P → A) (point : P) {segs : List (Poly P)}
    (h : segs ≠ []) : FCInv d point segs (find_closest d point segs) := by
  match segs with
  | [] => exact absurd rfl h
  | a :: rest =>
      have h1 : FCInv d point [a] (fcStep d point ⟨none, (0 : A), none⟩ a) :=
        fc_first a
      have h2 := fc_fold_inv rest [a] _ h1
      simpa [find_closest] using h2

lemma find_closest_mem {d : P → P → A} {point : P} {segs : List (Poly P)}
    {cs : Poly P} (h : (find_closest d point segs).closest_segment = some cs) :
    cs ∈ segs := by
  match segs with
  | [] => simp [find_closest] at h
  | a :: rest =>
      obtain ⟨cs2, loc, l1, l2, hst, hpairs, -, -⟩ :=
        find_closest_inv d point (List.cons_ne_nil a rest)
      rw [hst] at h
      have hcs : cs2 = cs := by simpa using h
      subst hcs
      have hmem : (cs2, loc) ∈ pairsOf (a :: rest) := by
        rw [hpairs]
        exact List.mem_append_right l1 (List.mem_cons_self _ _)
      exact pairsOf_mem hmem

lemma find_closest_isSome (d : P → P → A) (point : P) {segs : List (Poly P)}
    (h : segs ≠ []) : (find_closest d point segs).closest_segment.isSome := by
  obtain ⟨cs, loc, l1, l2, hst, -, -, -⟩ := find_closest_inv d point h
  rw [hst]
  rfl

/-! ## Anatomy of one loop iteration and loop invariants -/

lemma removeFirst_length {l : List (Poly P)} {cs : Poly P} (h : cs ∈ l) :
    (removeFirst l cs).length + 1 = l.length := by
  induction l with
  | nil => simp at h
  | cons x rest ih =>
      by_cases hx : x = cs
      · simp [removeFirst, hx]
      · have hmem : cs ∈ rest := by
          rcases List.mem_cons.mp h with h1 | h1
          · exact absurd h1.symm hx
          · exact h1
        simp only [removeFirst, if_neg hx, List.length_cons]
        rw [← ih hmem]

lemma removeFirst_sublist (l : List (Poly P)) (cs : Poly P) :
    List.Sublist (removeFirst l cs) l := by
  induction l with
  | nil => exact List.Sublist.refl []
  | cons x rest ih =>
      by_cases hx : x = cs
      · rw [removeFirst, if_pos hx]
        exact List.sublist_cons_self x rest
      · rw [removeFirst, if_neg hx]
        exact List.Sublist.cons₂ x ih

lemma acceptMatch_some {tolerance : A} {r : FCState P A} {cs : Poly P}
    {loc : Option Loc} (h : acceptMatch tolerance r = some (cs, loc)) :
    r.closest_segment = some cs ∧ cs ≠ [] ∧ r.closest_distance < tolerance ∧
      r.closest_location = loc := by
  unfold acceptMatch at h
  split at h
  next cs2 heq =>
    split_ifs at h with hc
    injection h with h2
    injection h2 with ha hb
    subst ha
    exact ⟨heq, hc.1, hc.2, hb⟩
  next heq => exact absurd h (by simp)

lemma join_step_some {d : P → P → A} {tolerance : A} {s s2 : JState P}
    (h : join_step d tolerance s = some s2) :
    ∃ cs cs2, cs ∈ s.pool ∧ s2.pool = removeFirst s.pool cs ∧ s2.seg = cs2 ∧
      (cs2 = cs ∨ cs2 = cs.reverse) ∧
      (s2.chain = s.chain ++ [cs2] ∨ s2.chain = cs2 :: s.chain) := by
  unfold join_step at h
  split at h
  next cs loc heq =>
    obtain ⟨hseg, -, -, -⟩ := acceptMatch_some heq
    have hmem : cs ∈ s.pool := find_closest_mem hseg
    injection h with h2
    subst h2
    refine ⟨cs, if loc = some Loc.atEnd then cs.reverse else cs, hmem,
      rfl, rfl, ?_, Or.inl rfl⟩
    by_cases hl : loc = some Loc.atEnd
    · rw [if_pos hl]; exact Or.inr rfl
    · rw [if_neg hl]; exact Or.inl rfl
  next heq =>
    split at h
    next cs loc heq2 =>
      obtain ⟨hseg, -, -, -⟩ := acceptMatch_some heq2
      have hmem : cs ∈ s.pool := find_closest_mem hseg
      injection h with h2
      subst h2
      refine ⟨cs, if loc = some Loc.atStart then cs.reverse else cs, hmem,
        rfl, rfl, ?_, Or.inr rfl⟩
      by_cases hl : loc = some Loc.atStart
      · rw [if_pos hl]; exact Or.inr rfl
      · rw [if_neg hl]; exact Or.inl rfl
    next heq2 => exact absurd h (by simp)

lemma join_step_pool_length {d : P → P → A} {tolerance : A} {s s2 : JState P}
    (h : join_step d tolerance s = some s2) :
    s2.pool.length + 1 = s.pool.length := by
  obtain ⟨cs, cs2, hmem, hpool, -, -, -⟩ := join_step_some h
  rw [hpool]
  exact removeFirst_length hmem

lemma join_step_chain_length {d : P → P → A} {tolerance : A} {s s2 : JState P}
    (h : join_step d tolerance s = some s2) :
    s2.chain.length = s.chain.length + 1 := by
  obtain ⟨cs, cs2, -, -, -, -, hchain⟩ := join_step_some h
  rcases hchain with hchain | hchain <;> simp [hchain]

lemma join_step_pool_sublist {d : P → P → A} {tolerance : A} {s s2 : JState P}
    (h : join_step d tolerance s = some s2) :
    List.Sublist s2.pool s.pool := by
  obtain ⟨cs, cs2, -, hpool, -, -, -⟩ := join_step_some h
  rw [hpool]
  exact removeFirst_sublist s.pool cs

lemma join_loop_inv {d : P → P → A} {tolerance : A} (Pr : JState P → Prop)
    (hstep : ∀ s s2 : JState P,
      join_step d tolerance s = some s2 → Pr s → Pr s2) :
    ∀ (fuel : Nat) (s : JState P), Pr s →
      Pr (join_loop d tolerance fuel s) := by
  intro fuel
  induction fuel with
  | zero => intro s h; exact h
  | succ n ih =>
      intro s h
      unfold join_loop
      by_cases hp : s.pool = []
      · rw [if_pos hp]; exact h
      · rw [if_neg hp]
        cases hj : join_step d tolerance s with
        | none => exact h
        | some s2 => exact ih s2 (hstep s s2 hj h)

lemma runStates_inv {d : P → P → A} {tolerance : A} (Pr : JState P → Prop)
    (hstep : ∀ s s2 : JState P,
      join_step d tolerance s = some s2 → Pr s → Pr s2) :
    ∀ (fuel : Nat) (s : JState P), Pr s →
      ∀ t ∈ runStates d tolerance fuel s, Pr t := by
  intro fuel
  induction fuel with
  | zero =>
      intro s h t ht
      simp only [runStates, List.mem_singleton] at ht
      subst ht; exact h
  | succ n ih =>
      intro s h t ht
      simp only [runStates, List.mem_cons] at ht
      rcases ht with ht | ht
      · subst ht; exact h
      · by_cases hp : s.pool = []
        · rw [if_pos hp] at ht; simp at ht
        · rw [if_neg hp] at ht
          cases hj : join_step d tolerance s with
          | none => rw [hj] at ht; simp at ht
          | some s2 =>
              rw [hj] at ht
              exact ih s2 (hstep s s2 hj h) t ht

lemma join_loop_fuel_irrel {d : P → P → A} {tolerance : A} :
    ∀ (fuel : Nat) (s : JState P), s.pool.length ≤ fuel →
      join_loop d tolerance fuel s = join_loop d tolerance s.pool.length s := by
  intro fuel
  induction fuel with
  | zero =>
      intro s h
      have h0 : s.pool.length = 0 := Nat.le_zero.mp h
      rw [h0]
  | succ n ih =>
      intro s h
      by_cases hp : s.pool = []
      · have h0 : s.pool.length = 0 := by simp [hp]
        rw [h0]
        unfold join_loop
        rw [if_pos hp]
      · obtain ⟨k, hk⟩ : ∃ k, s.pool.length = k + 1 := by
          cases hl : s.pool.length with
          | zero => exact absurd (List.length_eq_zero.mp hl) hp
          | succ m => exact ⟨m, rfl⟩
        rw [hk]
        unfold join_loop
        rw [if_neg hp, if_neg hp]
        cases hj : join_step d tolerance s with
        | none => simp [hj]
        | some s2 =>
            simp only [hj]
            have hlen : s2.pool.length = k := by
              have h2 := join_step_pool_length hj
              omega
            have hle2 : s2.pool.length ≤ n := by
              have h2 := join_step_pool_length hj
              omega
            rw [ih s2 hle2, ← hlen]

/-! ## Helper facts for the two-polyline scenario -/

lemma find_closest_single (d : P → P → A) (point : P) (p : Poly P) :
    find_closest d point [p] =
      if d point (polyEnd p) < d point (polyStart p) then
        ⟨some p, d point (polyEnd p), some Loc.atEnd⟩
      else ⟨some p, d point (polyStart p), some Loc.atStart⟩ := by
  have h1 : find_closest d point [p] =
      fcStep d point ⟨none, 0, none⟩ p := rfl
  rw [h1, fcStep_init_eq]

lemma acceptMatch_single (d : P → P → A) (tolerance : A) (point : P)
    {p : Poly P} (hp : p ≠ []) :
    acceptMatch tolerance (find_closest d point [p]) =
      if min (d point (polyStart p)) (d point (polyEnd p)) < tolerance then
        some (p,
          if d point (polyEnd p) < d point (polyStart p) then some Loc.atEnd
          else some Loc.atStart)
      else none := by
  rw [find_closest_single]
  by_cases h2 : d point (polyEnd p) < d point (polyStart p)
  · rw [if_pos h2]
    have hmin : min (d point (polyStart p)) (d point (polyEnd p)) =
        d point (polyEnd p) := min_eq_right h2.le
    rw [hmin]
    simp only [acceptMatch]
    by_cases h3 : d point (polyEnd p) < tolerance
    · rw [if_pos (And.intro hp h3), if_pos h3, if_pos h2]
    · rw [if_neg ?_, if_neg h3]
      intro hc
      exact h3 hc.2
  · rw [if_neg h2]
    have hmin : min (d point (polyStart p)) (d point (polyEnd p)) =
        d point (polyStart p) := min_eq_left (not_lt.mp h2)
    rw [hmin]
    simp only [acceptMatch]
    by_cases h3 : d point (polyStart p) < tolerance
    · rw [if_pos (And.intro hp h3), if_pos h3, if_neg h2]
    · rw [if_neg ?_, if_neg h3]
      intro hc
      exact h3 hc.2

/-! ## The claims -/

/-- C2: for every non-empty pool, `find_closest` returns a
segment/endpoint pair attaining the minimum distance to the target over
all (segment, start) and (segment, end) pairs; because it is a
streaming running minimum in pool order — start compared first, then
end against the possibly just-updated minimum, each update strictly
smaller — the returned pair is exactly the first one attaining the
minimum in the `pairsOf` enumeration: every earlier pair is strictly
farther, every later pair no closer, and the reported distance is the
distance of the returned pair. -/
theorem find_closest_first_minimum (d : P → P → A) (point : P)
    (segs : List (Poly P)) (h : segs ≠ []) :
    ∃ cs loc l1 l2,
      find_closest d point segs =
        ⟨some cs, epDist d point (cs, loc), some loc⟩ ∧
      pairsOf segs = l1 ++ (cs, loc) :: l2 ∧
      (∀ x ∈ l1, epDist d point (cs, loc) < epDist d point x) ∧
      (∀ x ∈ l2, epDist d point (cs, loc) ≤ epDist d point x) :=
  find_closest_inv d point h

/-- Witness for C2 at a concrete pool. -/
theorem find_closest_first_minimum_witness :
    ∃ cs loc l1 l2,
      find_closest euclidSq ((1 : ℤ), (0 : ℤ))
          [[((-1 : ℤ), (0 : ℤ)), (0, 0)], [(-2, 0), (-1, 0)]] =
        ⟨some cs, epDist euclidSq (1, 0) (cs, loc), some loc⟩ ∧
      pairsOf [[((-1 : ℤ), (0 : ℤ)), (0, 0)], [(-2, 0), (-1, 0)]] =
        l1 ++ (cs, loc) :: l2 ∧
      (∀ x ∈ l1, epDist euclidSq (1, 0) (cs, loc) < epDist euclidSq (1, 0) x) ∧
      (∀ x ∈ l2, epDist euclidSq (1, 0) (cs, loc) ≤ epDist euclidSq (1, 0) x) :=
  find_closest_first_minimum euclidSq (1, 0)
    [[(-1, 0), (0, 0)], [(-2, 0), (-1, 0)]] (by decide)

/-- C7: `find_closest` on an empty pool returns no candidate and zero
distance, and the candidate is `none` exactly when the pool is empty. -/
theorem find_closest_none_iff_empty (d : P → P → A) (point : P) :
    find_closest d point ([] : List (Poly P)) = ⟨none, 0, none⟩ ∧
    ∀ segs : List (Poly P),
      ((find_closest d point segs).closest_segment = none ↔ segs = []) := by
  refine ⟨rfl, ?_⟩
  intro segs
  constructor
  · intro h
    by_contra hne
    have hs := find_closest_isSome d point hne
    rw [h] at hs
    simp at hs
  · intro h
    subst h
    rfl

/-- Witness for C7 at a concrete metric and target. -/
theorem find_closest_none_iff_empty_witness :
    find_closest euclidSq ((0 : ℤ), (0 : ℤ)) ([] : List (Poly (ℤ × ℤ))) =
      ⟨none, 0, none⟩ ∧
    ∀ segs : List (Poly (ℤ × ℤ)),
      ((find_closest euclidSq ((0 : ℤ), (0 : ℤ)) segs).closest_segment = none ↔
        segs = []) :=
  find_closest_none_iff_empty euclidSq (0, 0)

/-- C4: when the tail attempt matches, the matched polyline is reversed
iff the endpoint kind is `end` and is appended at the chain tail; when
the tail attempt fails and the head attempt matches, the matched
polyline is reversed iff the endpoint kind is `start` and is prepended
at the chain head; in both cases the matched polyline leaves the pool
and becomes the new `seg`. -/
theorem match_orientation_placement (d : P → P → A) (tolerance : A)
    (s : JState P) (cs : Poly P) (loc : Option Loc) :
    (acceptMatch tolerance (tailQuery d s) = some (cs, loc) →
      join_step d tolerance s =
        some ⟨removeFirst s.pool cs,
          s.chain ++ [if loc = some Loc.atEnd then cs.reverse else cs],
          if loc = some Loc.atEnd then cs.reverse else cs⟩) ∧
    (acceptMatch tolerance (tailQuery d s) = none →
      acceptMatch tolerance (headQuery d s) = some (cs, loc) →
      join_step d tolerance s =
        some ⟨removeFirst s.pool cs,
          (if loc = some Loc.atStart then cs.reverse else cs) :: s.chain,
          if loc = some Loc.atStart then cs.reverse else cs⟩) := by
  constructor
  · intro h
    simp [join_step, h]
  · intro h1 h2
    simp [join_step, h1, h2]

/-- Witness for C4: a tail match with endpoint kind `end` reverses the
matched polyline and appends it. -/
theorem match_orientation_placement_witness :
    join_step euclidSq 1
        (⟨[[(2, 0), (1, 0)]], [[(0, 0), (1, 0)]],
          [((0 : ℤ), (0 : ℤ)), (1, 0)]⟩ : JState (ℤ × ℤ)) =
      some ⟨[], [[(0, 0), (1, 0)], [(1, 0), (2, 0)]], [(1, 0), (2, 0)]⟩ := by
  have h := (match_orientation_placement euclidSq 1
    (⟨[[(2, 0), (1, 0)]], [[(0, 0), (1, 0)]],
      [((0 : ℤ), (0 : ℤ)), (1, 0)]⟩ : JState (ℤ × ℤ))
    [(2, 0), (1, 0)] (some Loc.atEnd)).1 (by decide)
  simpa using h

/-- C5: the assembly loop terminates within pool-size iterations:
running `join_loop` with any fuel at least the pool size gives the same
result as running it with exactly the pool size, and every successful
iteration removes exactly one polyline from the pool (an unsuccessful
one exits the loop). -/
theorem loop_terminates_within_pool_size (d : P → P → A) (tolerance : A)
    (s : JState P) (fuel : Nat) (h : s.pool.length ≤ fuel) :
    join_loop d tolerance fuel s = join_loop d tolerance s.pool.length s ∧
    ∀ s2 : JState P, join_step d tolerance s = some s2 →
      s2.pool.length + 1 = s.pool.length :=
  ⟨join_loop_fuel_irrel fuel s h, fun _ hj => join_step_pool_length hj⟩

/-- Witness for C5 at a concrete state and fuel. -/
theorem loop_terminates_within_pool_size_witness :
    join_loop euclidSq 1 5
        (⟨[[(1, 0), (2, 0)]], [[(0, 0), (1, 0)]],
          [((0 : ℤ), (0 : ℤ)), (1, 0)]⟩ : JState (ℤ × ℤ)) =
      join_loop euclidSq 1 1
        (⟨[[(1, 0), (2, 0)]], [[(0, 0), (1, 0)]],
          [((0 : ℤ), (0 : ℤ)), (1, 0)]⟩ : JState (ℤ × ℤ)) ∧
    ∀ s2 : JState (ℤ × ℤ),
      join_step euclidSq 1
          (⟨[[(1, 0), (2, 0)]], [[(0, 0), (1, 0)]],
            [((0 : ℤ), (0 : ℤ)), (1, 0)]⟩ : JState (ℤ × ℤ)) = some s2 →
        s2.pool.length + 1 = 1 :=
  loop_terminates_within_pool_size euclidSq 1
    ⟨[[(1, 0), (2, 0)]], [[(0, 0), (1, 0)]], [(0, 0), (1, 0)]⟩ 5 (by decide)

/-- C6: throughout assembly the number of chain polylines plus the
number of pool polylines equals the input count — seeding moves one
polyline from pool to chain and every successful iteration moves
exactly one more. -/
theorem chain_pool_conservation (d : P → P → A) (tolerance : A)
    (src : List (Poly P)) (fuel : Nat) (h : src ≠ []) :
    (∀ t ∈ runStates d tolerance fuel (seedState src),
      t.chain.length + t.pool.length = src.length) ∧
    (∀ s s2 : JState P, join_step d tolerance s = some s2 →
      s2.pool.length + 1 = s.pool.length ∧
      s2.chain.length = s.chain.length + 1) := by
  constructor
  · refine runStates_inv
      (fun t => t.chain.length + t.pool.length = src.length) ?_ fuel
      (seedState src) ?_
    · intro s s2 hj hP
      have h1 := join_step_pool_length hj
      have h2 := join_step_chain_length hj
      omega
    · have hd : (seedState src).pool.length = src.length - 1 := by
        simp [seedState]
      have hc : (seedState src).chain.length = 1 := by
        simp [seedState]
      have hpos : 0 < src.length := List.length_pos.mpr h
      omega
  · intro s s2 hj
    exact ⟨join_step_pool_length hj, join_step_chain_length hj⟩

/-- Witness for C6 at a concrete two-segment input. -/
theorem chain_pool_conservation_witness :
    (∀ t ∈ runStates euclidSq 1 2
        (seedState [[((0 : ℤ), (0 : ℤ)), (1, 0)], [(1, 0), (2, 0)]]),
      t.chain.length + t.pool.length = 2) ∧
    (∀ s s2 : JState (ℤ × ℤ), join_step euclidSq 1 s = some s2 →
      s2.pool.length + 1 = s.pool.length ∧
      s2.chain.length = s.chain.length + 1) :=
  chain_pool_conservation euclidSq 1
    [[(0, 0), (1, 0)], [(1, 0), (2, 0)]] 2 (by decide)

lemma foldl_append_length (l : List (Poly P)) :
    ∀ acc : List P,
      (l.foldl (fun a seg => a ++ seg) acc).length =
        acc.length + (l.map List.length).sum := by
  induction l with
  | nil => intro acc; simp
  | cons x rest ih =>
      intro acc
      simp only [List.foldl_cons, List.map_cons, List.sum_cons]
      rw [ih (acc ++ x)]
      simp [Nat.add_assoc]

/-- C8: combine mode concatenates the chain polylines' coordinate
sequences in chain order with no deduplication, so the output point
count is the sum of the chain polylines' point counts. -/
theorem all_coords_length (chain : List (Poly P)) :
    (all_coords chain).length = (chain.map List.length).sum := by
  unfold all_coords
  rw [foldl_append_length]
  simp

/-- C9: assembling a pool of exactly one polyline returns that polyline
unchanged as the whole chain, with no leftovers, for every tolerance. -/
theorem assemble_singleton (d : P → P → A) (tolerance : A) (p : Poly P) :
    assemble d tolerance [p] = some ([p], []) := rfl

/-- C10: every leftover polyline is one of the input polylines with its
coordinate sequence unchanged (the leftovers are even a subsequence of
the input list): reversal touches only matched polylines, never the
pool. -/
theorem leftovers_unchanged (d : P → P → A) (tolerance : A)
    (src chain leftovers : List (Poly P))
    (h : assemble d tolerance src = some (chain, leftovers)) :
    List.Sublist leftovers src := by
  unfold assemble at h
  split at h
  next heq => exact absurd h (by simp)
  next a heq =>
    injection h with h2
    injection h2 with hc hl
    have hsub : List.Sublist
        (join_loop d tolerance (seedState src).pool.length
          (seedState src)).pool (seedState src).pool := by
      refine join_loop_inv
        (fun t => List.Sublist t.pool (seedState src).pool) ?_ _ _
        (List.Sublist.refl _)
      intro s s2 hj hP
      exact (join_step_pool_sublist hj).trans hP
    rw [← hl]
    exact hsub.trans (List.dropLast_sublist src)

/-- Witness for C10: a run that leaves one leftover. -/
theorem leftovers_unchanged_witness :
    List.Sublist [[((0 : ℤ), (0 : ℤ)), (1, 0)]]
      [[((0 : ℤ), (0 : ℤ)), (1, 0)], [(10, 0), (11, 0)]] :=
  leftovers_unchanged euclidSq 1
    [[(0, 0), (1, 0)], [(10, 0), (11, 0)]]
    [[(10, 0), (11, 0)]] [[(0, 0), (1, 0)]] (by decide)

/-- C3: for a pool of two polylines whose nearest endpoints are at
distance `minDist4 d p q`, the assembler joins them exactly when that
distance is strictly below the tolerance (both the tail and the head
attempt compare strictly), and otherwise leaves the second polyline as
a leftover — in particular no join happens at distance exactly equal to
the tolerance. -/
theorem join_iff_strictly_within_tolerance (d : P → P → A) (tolerance : A)
    (p q : Poly P) (hp : p ≠ []) :
    (minDist4 d p q < tolerance ↔
      ∃ ch, assemble d tolerance [p, q] = some (ch, [])) ∧
    (¬ minDist4 d p q < tolerance →
      assemble d tolerance [p, q] = some ([q], [p])) := by
  have htq : tailQuery d (⟨[p], [q], q⟩ : JState P) =
      find_closest d (polyEnd q) [p] := rfl
  have hhq : headQuery d (⟨[p], [q], q⟩ : JState P) =
      find_closest d (polyStart q) [p] := rfl
  have hA : assemble d tolerance [p, q] =
      some ((join_loop d tolerance 1 (⟨[p], [q], q⟩ : JState P)).chain,
        (join_loop d tolerance 1 (⟨[p], [q], q⟩ : JState P)).pool) := rfl
  have hL : ∀ s2 : JState P,
      join_step d tolerance (⟨[p], [q], q⟩ : JState P) = some s2 →
      join_loop d tolerance 1 (⟨[p], [q], q⟩ : JState P) = s2 := by
    intro s2 hs
    unfold join_loop
    rw [if_neg (by simp), hs]
    rfl
  have hN : join_step d tolerance (⟨[p], [q], q⟩ : JState P) = none →
      join_loop d tolerance 1 (⟨[p], [q], q⟩ : JState P) = ⟨[p], [q], q⟩ := by
    intro hs
    unfold join_loop
    rw [if_neg (by simp), hs]
  have hsuccess : ∀ s2 : JState P,
      join_step d tolerance (⟨[p], [q], q⟩ : JState P) = some s2 →
      ∃ ch, assemble d tolerance [p, q] = some (ch, []) := by
    intro s2 hs
    obtain ⟨cs, cs2, hmem, hpoolEq, -, -, -⟩ := join_step_some hs
    have hcs : cs = p := by simpa using hmem
    have hpool : s2.pool = [] := by
      rw [hpoolEq, hcs]
      simp [removeFirst]
    refine ⟨s2.chain, ?_⟩
    rw [hA, hL s2 hs, hpool]
  by_cases hT : min (d (polyEnd q) (polyStart p)) (d (polyEnd q) (polyEnd p)) <
      tolerance
  · have hacc := acceptMatch_single d tolerance (polyEnd q) hp
    rw [if_pos hT] at hacc
    obtain ⟨s2, hs2⟩ : ∃ s2, join_step d tolerance
        (⟨[p], [q], q⟩ : JState P) = some s2 := by
      unfold join_step
      rw [htq, hacc]
      exact ⟨_, rfl⟩
    have hmd : minDist4 d p q < tolerance :=
      lt_of_le_of_lt (min_le_left _ _) hT
    constructor
    · exact ⟨fun _ => hsuccess s2 hs2, fun _ => hmd⟩
    · intro hn
      exact absurd hmd hn
  · by_cases hH : min (d (polyStart q) (polyStart p))
        (d (polyStart q) (polyEnd p)) < tolerance
    · have hacc1 := acceptMatch_single d tolerance (polyEnd q) hp
      rw [if_neg hT] at hacc1
      have hacc2 := acceptMatch_single d tolerance (polyStart q) hp
      rw [if_pos hH] at hacc2
      obtain ⟨s2, hs2⟩ : ∃ s2, join_step d tolerance
          (⟨[p], [q], q⟩ : JState P) = some s2 := by
        unfold join_step
        rw [htq, hacc1, hhq, hacc2]
        exact ⟨_, rfl⟩
      have hmd : minDist4 d p q < tolerance :=
        lt_of_le_of_lt (min_le_right _ _) hH
      constructor
      · exact ⟨fun _ => hsuccess s2 hs2, fun _ => hmd⟩
      · intro hn
        exact absurd hmd hn
    · have hacc1 := acceptMatch_single d tolerance (polyEnd q) hp
      rw [if_neg hT] at hacc1
      have hacc2 := acceptMatch_single d tolerance (polyStart q) hp
      rw [if_neg hH] at hacc2
      have hstep : join_step d tolerance (⟨[p], [q], q⟩ : JState P) = none := by
        unfold join_step
        rw [htq, hacc1, hhq, hacc2]
      have hres : assemble d tolerance [p, q] = some ([q], [p]) := by
        rw [hA, hN hstep]
      constructor
      · constructor
        · intro hlt
          rcases min_lt_iff.mp hlt with hx | hx
          · exact absurd hx hT
          · exact absurd hx hH
        · rintro ⟨ch, hch⟩
          rw [hres] at hch
          injection hch with h2
          injection h2 with hc hl
          exact absurd hl.symm (by simp)
      · intro _
        exact hres

/-- Witness for C3: two unit segments at squared distance 1 with
squared tolerance 2 (joins since 1 < 2). -/
theorem join_iff_strictly_within_tolerance_witness :
    (minDist4 euclidSq [((0 : ℤ), (0 : ℤ)), (1, 0)] [(2, 0), (3, 0)] < 2 ↔
      ∃ ch, assemble euclidSq 2
          [[((0 : ℤ), (0 : ℤ)), (1, 0)], [(2, 0), (3, 0)]] =
        some (ch, [])) ∧
    (¬ minDist4 euclidSq [((0 : ℤ), (0 : ℤ)), (1, 0)] [(2, 0), (3, 0)] < 2 →
      assemble euclidSq 2 [[((0 : ℤ), (0 : ℤ)), (1, 0)], [(2, 0), (3, 0)]] =
        some ([[(2, 0), (3, 0)]], [[(0, 0), (1, 0)]])) :=
  join_iff_strictly_within_tolerance euclidSq 2
    [(0, 0), (1, 0)] [(2, 0), (3, 0)] (by decide)

/-- C1 (amended): in every iteration the tail query targets the end
point, and the head query the start point, of the variable `seg` — the
most recently placed polyline — which is always either the first or the
last polyline of the chain (after seeding or a tail append it is the
last; after a head prepend it is the first, and then the tail query
does NOT use the last polyline's end point). -/
theorem queries_target_last_matched (d : P → P → A) (tolerance : A)
    (src : List (Poly P)) (fuel : Nat) (h : src ≠ []) :
    ∀ t ∈ runStates d tolerance fuel (seedState src),
      tailQuery d t = find_closest d (polyEnd t.seg) t.pool ∧
      headQuery d t = find_closest d (polyStart t.seg) t.pool ∧
      t.chain ≠ [] ∧
      (t.seg = t.chain.headD [] ∨ t.seg = t.chain.getLastD []) := by
  intro t ht
  have hstep : ∀ s s2 : JState P, join_step d tolerance s = some s2 →
      (s.chain ≠ [] ∧
        (s.seg = s.chain.headD [] ∨ s.seg = s.chain.getLastD [])) →
      s2.chain ≠ [] ∧
        (s2.seg = s2.chain.headD [] ∨ s2.seg = s2.chain.getLastD []) := by
    intro s s2 hj hP
    obtain ⟨cs, cs2, -, -, hseg, -, hchain⟩ := join_step_some hj
    rcases hchain with hch | hch
    · refine ⟨by simp [hch], Or.inr ?_⟩
      rw [hseg, hch]
      simp
    · refine ⟨by simp [hch], Or.inl ?_⟩
      rw [hseg, hch]
      rfl
  have hseed : (seedState src : JState P).chain ≠ [] ∧
      ((seedState src).seg = (seedState src).chain.headD [] ∨
        (seedState src).seg = (seedState src).chain.getLastD []) := by
    exact ⟨by simp [seedState], Or.inl (by simp [seedState])⟩
  have hinv := runStates_inv _ hstep fuel (seedState src) hseed t ht
  exact ⟨rfl, rfl, hinv.1, hinv.2⟩

/-- Witness for the amended C1 at the seeded state of a concrete run. -/
theorem queries_target_last_matched_witness :
    tailQuery euclidSq
        (⟨[[(0, 0), (1, 0)]], [[(1, 0), (2, 0)]], [(1, 0), (2, 0)]⟩ :
          JState (ℤ × ℤ)) =
      find_closest euclidSq (polyEnd [((1 : ℤ), (0 : ℤ)), (2, 0)])
        [[(0, 0), (1, 0)]] ∧
    headQuery euclidSq
        (⟨[[(0, 0), (1, 0)]], [[(1, 0), (2, 0)]], [(1, 0), (2, 0)]⟩ :
          JState (ℤ × ℤ)) =
      find_closest euclidSq (polyStart [((1 : ℤ), (0 : ℤ)), (2, 0)])
        [[(0, 0), (1, 0)]] ∧
    ([[((1 : ℤ), (0 : ℤ)), (2, 0)]] : List (Poly (ℤ × ℤ))) ≠ [] ∧
    ([((1 : ℤ), (0 : ℤ)), (2, 0)] =
        ([[((1 : ℤ), (0 : ℤ)), (2, 0)]] : List (Poly (ℤ × ℤ))).headD [] ∨
      [((1 : ℤ), (0 : ℤ)), (2, 0)] =
        ([[((1 : ℤ), (0 : ℤ)), (2, 0)]] : List (Poly (ℤ × ℤ))).getLastD []) :=
  queries_target_last_matched euclidSq 1
    [[(0, 0), (1, 0)], [(1, 0), (2, 0)]] 2 (by decide)
    ⟨[[(0, 0), (1, 0)]], [[(1, 0), (2, 0)]], [(1, 0), (2, 0)]⟩ (by decide)

/-- C1 as stated is false: it is not the case that the tail query
always targets the end point of the last polyline currently in the
chain (with the head query, on tail failure, targeting the start point
of the first).  After a head prepend, `seg` is the first polyline of
the chain, and the next tail query targets that first polyline's end
point: in the run on the pool `[[(-1,0),(0,0)], [(-2,0),(-1,0)],
[(0,0),(1,0)]]` with squared tolerance 1, the loop reaches the state
with chain `[[(-1,0),(0,0)], [(0,0),(1,0)]]` and `seg = [(-1,0),(0,0)]`,
whose tail query targets `(0,0)` (distance 1 to the remaining segment)
and not the chain-tail end point `(1,0)` (distance 4). -/
theorem tail_query_not_chain_tail :
    ¬ ∀ (d : ℤ × ℤ → ℤ × ℤ → ℤ) (tolerance : ℤ)
        (src : List (Poly (ℤ × ℤ))) (fuel : Nat), src ≠ [] →
        ∀ t ∈ runStates d tolerance fuel (seedState src), t.pool ≠ [] →
          tailQuery d t =
            find_closest d (polyEnd (t.chain.getLastD [])) t.pool ∧
          (acceptMatch tolerance (tailQuery d t) = none →
            headQuery d t =
              find_closest d (polyStart (t.chain.headD [])) t.pool) := by
  intro hclaim
  have h2 := hclaim euclidSq 1
    [[(-1, 0), (0, 0)], [(-2, 0), (-1, 0)], [(0, 0), (1, 0)]] 3 (by decide)
    ⟨[[(-2, 0), (-1, 0)]], [[(-1, 0), (0, 0)], [(0, 0), (1, 0)]],
      [(-1, 0), (0, 0)]⟩ (by decide) (by decide)
  exact absurd h2.1 (by decide)

end JoinEm
